import Mathlib

/-!
# Verification of the mlem location-resolution and metadata-discovery core

Shallow embedding of `mlem/core/meta_io.py` and the relevant parts of
`mlem/core/metadata.py`.  Paths are posix strings; the filesystem backend is
modelled as its capability set (`isfile`, `isdir`, `exists`) together with the
structural data that `get_path_by_fs_path` inspects (Github org/repo/root, or a
protocol attribute that is a string or a non-empty sequence of strings).
-/

namespace Mlem

/-! ## List-level string helpers (python `os.path` / `str` operations) -/

/-- `isPrefixL p l` is python `l.startswith(p)` on character lists. -/
def isPrefixL : List Char → List Char → Bool
  | [], _ => true
  | _ :: _, [] => false
  | p :: ps, c :: cs => p = c && isPrefixL ps cs

/-- `isInfixL n h` is python `n in h` (substring containment) on char lists. -/
def isInfixL (n : List Char) : List Char → Bool
  | [] => isPrefixL n []
  | c :: cs => isPrefixL n (c :: cs) || isInfixL n cs

/-- Drop `p` from the front of `l`, or fail: the workhorse for `startswith`
followed by slicing off the prefix. -/
def dropPrefixL : List Char → List Char → Option (List Char)
  | [], l => some l
  | _ :: _, [] => none
  | p :: ps, c :: cs => if p = c then dropPrefixL ps cs else none

/-- python `s.split("/")` on char lists; never returns `[]`. -/
def splitOnSlash : List Char → List (List Char)
  | [] => [[]]
  | c :: rest =>
    if c = '/' then [] :: splitOnSlash rest
    else
      match splitOnSlash rest with
      | [] => [[c]]
      | h :: t => (c :: h) :: t

/-- python `"/".join` on char lists. -/
def joinSlashL : List (List Char) → List Char
  | [] => []
  | [x] => x
  | x :: xs => x ++ '/' :: joinSlashL xs

/-- Split a URI at the first occurrence of `"://"` (fsspec protocol
auto-detection); `none` when there is no separator. -/
def splitSchemeL : List Char → Option (List Char × List Char)
  | ':' :: '/' :: '/' :: rest => some ([], rest)
  | c :: rest => (splitSchemeL rest).map (fun pr => (c :: pr.1, pr.2))
  | [] => none

/-! ## String wrappers -/

/-- python `s.startswith(pre)`. -/
def startsWithStr (s pre : String) : Bool := isPrefixL pre.data s.data

/-- python `sub in s`. -/
def strContains (s sub : String) : Bool := isInfixL sub.data s.data

/-- python `s.split("/")`. -/
def strSplitSlash (s : String) : List String :=
  (splitOnSlash s.data).map (fun l => String.mk l)

/-- python `"/".join(parts)`. -/
def joinSlash (parts : List String) : String :=
  String.mk (joinSlashL (parts.map String.data))

/-- python `os.path.basename` for posix paths: everything after the last
slash. -/
def basename (s : String) : String :=
  String.mk ((splitOnSlash s.data).getLastD [])

/-- python `os.path.join(a, b)` (posix flavour, also `posixpath.join`):
an absolute second component resets, an empty first component disappears,
otherwise a single slash is inserted unless one is already there. -/
def osJoin (a b : String) : String :=
  if isPrefixL ['/'] b.data then b
  else if a = "" then b
  else if a.data.getLastD ' ' = '/' then a ++ b
  else a ++ "/" ++ b

/-! ## Fixed naming conventions (`meta_io.py` constants) -/

def MLEM_EXT : String := ".mlem.yaml"

def META_FILE_NAME : String := "mlem.yaml"

def ART_DIR : String := "artifacts"

/-- Modelled from the spec: `MLEM_DIR` lives in `mlem/utils/root.py`, which is
not part of the analysed sources; the spec fixes the registry directory to a
`".mlem"`-equivalent fixed literal. -/
def MLEM_DIR : String := ".mlem"

/-! ## Filesystem backend model -/

/-- The `protocol` attribute of an fsspec filesystem: a string or a non-empty
sequence of strings. -/
inductive ProtoAttr where
  | strP (s : String)
  | listP (hd : String) (tl : List String)
  deriving DecidableEq

/-- The structural identity of a backend: either the Github filesystem with its
`org`, `repo` and `root` (revision) attributes, or a generic fsspec backend
identified by its protocol attribute. -/
inductive FSKind where
  | github (org repo root : String)
  | generic (proto : ProtoAttr)
  deriving DecidableEq

/-- A filesystem backend: its structural kind plus the capability set the core
consumes (`isfile`, `isdir`, `exists`). -/
structure AbstractFileSystem where
  kind : FSKind
  isfile : String → Bool
  isdir : String → Bool
  fexists : String → Bool

/-- A backend is well formed when no path is simultaneously a file and a
directory. -/
def WFfs (fs : AbstractFileSystem) : Prop :=
  ∀ p, ¬(fs.isfile p = true ∧ fs.isdir p = true)

/-- Error outcomes of the core (python exception classes). -/
inductive MlemError where
  | invalidMetaLocation (uri : String)
  | fileNotFound (uri : String)
  | mlemObjectNotFound (uri : String)
  | typeError (msg : String)
  deriving DecidableEq

instance {ε α : Type} [DecidableEq ε] [DecidableEq α] : DecidableEq (Except ε α)
  | .ok a, .ok b =>
    if h : a = b then .isTrue (congrArg _ h)
    else .isFalse (fun hh => h (Except.ok.inj hh))
  | .ok _, .error _ => .isFalse (fun hh => Except.noConfusion hh)
  | .error _, .ok _ => .isFalse (fun hh => Except.noConfusion hh)
  | .error a, .error b =>
    if h : a = b then .isTrue (congrArg _ h)
    else .isFalse (fun hh => h (Except.error.inj hh))

/-! ## `get_meta_path` (meta_io.py lines 112-132) -/

/-- Embedding of `get_meta_path(uri, fs)`: augments the given path so it points
to a MLEM metafile, trying the four candidate interpretations in source order
and raising on failure. -/
def get_meta_path (uri : String) (fs : AbstractFileSystem) : Except MlemError String :=
  if basename uri = META_FILE_NAME && fs.isfile uri then
    Except.ok uri
  else if fs.isdir uri && fs.isfile (osJoin uri META_FILE_NAME) then
    Except.ok (osJoin uri META_FILE_NAME)
  else if fs.isfile (uri ++ MLEM_EXT) then
    Except.ok (uri ++ MLEM_EXT)
  else if strContains uri MLEM_DIR && fs.isfile uri then
    Except.ok uri
  else if fs.fexists uri then
    Except.error (MlemError.invalidMetaLocation uri)
  else
    Except.error (MlemError.fileNotFound uri)

/-- The condition of discovery rule `k` (0-indexed), exactly as tested by
`get_meta_path`. -/
def ruleCond (k : Fin 4) (uri : String) (fs : AbstractFileSystem) : Bool :=
  match k.val with
  | 0 => basename uri = META_FILE_NAME && fs.isfile uri
  | 1 => fs.isdir uri && fs.isfile (osJoin uri META_FILE_NAME)
  | 2 => fs.isfile (uri ++ MLEM_EXT)
  | _ => strContains uri MLEM_DIR && fs.isfile uri

/-- The path returned by discovery rule `k` (0-indexed) when it matches. -/
def ruleResult (k : Fin 4) (uri : String) : String :=
  match k.val with
  | 0 => uri
  | 1 => osJoin uri META_FILE_NAME
  | 2 => uri ++ MLEM_EXT
  | _ => uri

/-- A concrete backend for tests: membership in explicit file/directory
lists, with `exists` their union. -/
def mkFS (files dirs : List String) : AbstractFileSystem where
  kind := FSKind.generic (ProtoAttr.strP "file")
  isfile := fun p => files.contains p
  isdir := fun p => dirs.contains p
  fexists := fun p => files.contains p || dirs.contains p

/-! ## URI resolution (`get_fs` and collaborators) -/

/-- Decomposition of a hosted-repo browse URL into backend kwargs. -/
structure GithubKw where
  org : String
  repo : String
  sha : Option String
  path : String
  deriving DecidableEq

/-- Modelled from the spec: `get_github_kwargs` lives in `mlem/utils/github.py`,
which is not part of the analysed sources.  Per the spec it decomposes a
`https://github.com` browse URL into org, repo name, revision/branch and the
remaining repo-relative path taken from the URL's path segments (the
`tree/<rev>` form carries the revision); a URL with fewer than two path
segments fails to decompose. -/
def parseGithubSegs : List (List Char) → Option GithubKw
  | org :: repo :: tail =>
    if org = [] ∨ repo = [] then none
    else
      match tail with
      | [] => some ⟨String.mk org, String.mk repo, none, ""⟩
      | t :: more =>
        if t = "tree".data then
          match more with
          | sha :: ps =>
            some ⟨String.mk org, String.mk repo, some (String.mk sha),
              String.mk (joinSlashL ps)⟩
          | [] => none
        else
          some ⟨String.mk org, String.mk repo, none,
            String.mk (joinSlashL (t :: more))⟩
  | _ => none

def get_github_kwargs (uri : String) : Option GithubKw :=
  (dropPrefixL "https://github.com/".data uri.data).bind
    (fun rest => parseGithubSegs (splitOnSlash rest))

/-- A scheme table maps a detected protocol scheme to the `protocol` attribute
of the backend class registered for it (`none`: construction fails). -/
def SchemeTable : Type := String → Option ProtoAttr

/-- Embedding of `get_fs(uri, protocol)` (meta_io.py lines 22-39); the fsspec
call `get_fs_token_paths` is the external filesystem-abstraction layer,
modelled from the spec as scheme auto-detection from the URI prefix against a
scheme table; the hosted-repo browse-URL rewrite is performed first exactly as
in the source (protocol unset and uri starting with `https://github.com`).
Credential injection from the process environment only populates storage
options and is not modelled.  `none` models a raised exception. -/
def get_fs (table : SchemeTable) (uri : String) (protocol : Option String) :
    Option (FSKind × String) :=
  if protocol = none && startsWithStr uri "https://github.com" then
    match get_github_kwargs uri with
    | some kw => some (FSKind.github kw.org kw.repo (kw.sha.getD ""), kw.path)
    | none => none
  else
    match protocol with
    | some p =>
      match table p with
      | some attr =>
        some (FSKind.generic attr,
          match dropPrefixL (p ++ "://").data uri.data with
          | some rest => String.mk rest
          | none => uri)
      | none => none
    | none =>
      match splitSchemeL uri.data with
      | some (scheme, rest) =>
        match table (String.mk scheme) with
        | some attr => some (FSKind.generic attr, String.mk rest)
        | none => none
      | none =>
        match table "file" with
        | some attr => some (FSKind.generic attr, uri)
        | none => none

/-- Embedding of `get_path_by_fs_path(fs, path)` (meta_io.py lines 42-57):
restore a full uri from a backend and a backend-relative path. -/
def get_path_by_fs_path (fs : FSKind) (path : String) : String :=
  match fs with
  | FSKind.github org repo root =>
    "https://github.com/" ++ org ++ "/" ++ repo ++ "/tree/" ++ root ++ "/" ++ path
  | FSKind.generic (ProtoAttr.strP protocol) =>
    if startsWithStr path (protocol ++ "://") then path
    else protocol ++ "://" ++ path
  | FSKind.generic (ProtoAttr.listP hd tl) =>
    if (hd :: tl).any (fun q => startsWithStr path q) then path
    else if startsWithStr path (hd ++ "://") then path
    else hd ++ "://" ++ path

/-- The canonical protocol name of a backend's protocol attribute (the string
itself, or the first element of the sequence). -/
def protoName : ProtoAttr → String
  | ProtoAttr.strP s => s
  | ProtoAttr.listP hd _ => hd

/-- The relative path does not begin with a bare protocol name of the backend
(for a string protocol: not with `name://`). -/
def noBareProtoPrefix : ProtoAttr → String → Prop
  | ProtoAttr.strP s, p => startsWithStr p (s ++ "://") = false
  | ProtoAttr.listP hd tl, p => ∀ q ∈ hd :: tl, startsWithStr p q = false

/-- Embedding of `path_split_postfix(path, postfix)` (meta_io.py lines 60-61);
renamed because the source name is unavailable here: drop as many trailing
slash-segments from `path` as the second argument has. -/
def path_split_post (path pfx : String) : String :=
  joinSlash ((strSplitSlash path).take
    ((strSplitSlash path).length - (strSplitSlash pfx).length))

/-- Embedding of `get_path_by_repo_path_rev(repo, path, rev)` (meta_io.py
lines 64-87): construct a uri from a repo url, a relative path in the repo and
an optional revision; also returns additional kwargs for the backend.  `none`
models a raised exception (failed backend resolution or the failed
`isinstance` assertion). -/
def get_path_by_repo_path_rev (table : SchemeTable) (repo path : String)
    (rev : Option String) : Option (String × List (String × Option String)) :=
  if startsWithStr repo "https://github.com" then
    match rev with
    | none => some (osJoin repo path, [])
    | some r =>
      match get_fs table repo none with
      | some (FSKind.github _ _ _, root_path) =>
        some (osJoin (osJoin (osJoin (osJoin
          (path_split_post repo root_path) "tree") r) root_path) path, [])
      | some (FSKind.generic _, _) => none
      | none => none
  else
    some (osJoin repo path, [("rev", rev)])

/-- A concrete scheme table with stock fsspec registrations, for tests: a bare
path with no scheme separator resolves to the local (`file`) backend. -/
def demoTable : SchemeTable := fun s =>
  if s = "file" then some (ProtoAttr.listP "file" ["local"])
  else if s = "s3" then some (ProtoAttr.strP "s3")
  else if s = "memory" then some (ProtoAttr.strP "memory")
  else if s = "gs" then some (ProtoAttr.listP "gs" ["gcs"])
  else none

/-! ## `metadata.py` model -/

/-- Modelled from the spec: the MLEM object class hierarchy of
`mlem/core/objects.py` (not part of the analysed sources) — a base meta type
with model, dataset and link subclasses. -/
inductive MlemMetaType where
  | mlemMeta
  | modelMeta
  | datasetMeta
  | mlemLink
  deriving DecidableEq

/-- python `isinstance(x, t)` over the modelled hierarchy: every type is an
instance of itself and of the base type. -/
def isInstanceOf (t target : MlemMetaType) : Bool :=
  target = MlemMetaType.mlemMeta || t = target

/-- A loaded meta object: its dynamic type plus its decoded payload. -/
structure MlemMetaObj where
  ty : MlemMetaType
  payload : String
  deriving DecidableEq

/-- Embedding of the type-check tail of `load_meta` (metadata.py lines
126-143): the resolution and reading collaborators are passed in as the
already-read object, and the result is checked against
`force_type or MlemMeta`. -/
def load_meta (read_result : MlemMetaObj) (force_type : Option MlemMetaType) :
    Except MlemError MlemMetaObj :=
  if isInstanceOf read_result.ty (force_type.getD MlemMetaType.mlemMeta) then
    Except.ok read_result
  else
    Except.error (MlemError.typeError "Wrong type of meta loaded")

/-- Modelled from the spec: the Location Descriptor (class `Location` of
meta_io.py, not part of the analysed sources): backend, backend-relative
path, optional repo root, optional revision; `fullpath` is derived by joining
the repo root (or `""`) with the path. -/
structure Location where
  path : String
  repo : Option String
  rev : Option String
  fs : AbstractFileSystem

/-- Derived full path of a location: `posixpath.join(repo or "", path)`. -/
def Location.fullpath (l : Location) : String :=
  osJoin (l.repo.getD "") l.path

/-- Modelled from the spec: the descriptor's "derive with new path" operation
(`Location.update_path`), returning a sibling descriptor sharing backend and
repo/revision fields. -/
def Location.update_path (l : Location) (p : String) : Location :=
  { l with path := p }

/-- Modelled from the spec: `posixpath.relpath(path, start)` — drop the common
leading segments and climb with `..` for each remaining segment of `start`;
`"."` when the two coincide. -/
def relpath (path start : String) : String :=
  let rec dropCommon : List String → List String → List String × List String
    | p :: ps, s :: ss =>
      if p = s then dropCommon ps ss else (p :: ps, s :: ss)
    | ps, ss => (ps, ss)
  let pr := dropCommon (strSplitSlash path) (strSplitSlash start)
  let result := (pr.2.map (fun _ => "..")) ++ pr.1
  if result = [] then "." else joinSlash result

/-- Embedding of `find_meta_location(location)` (metadata.py lines 146-173):
locate the metadata file for a location, falling back to the registry lookup
(`find_object`, an external collaborator passed as a function returning the
found path or `none` for its `ValueError`) only on the not-found outcome of
direct discovery. -/
def find_meta_location (find_object : String → Option String)
    (location : Location) : Except MlemError Location :=
  match get_meta_path location.fullpath location.fs with
  | Except.ok path =>
    Except.ok (location.update_path
      (match location.repo with
       | some r => relpath path r
       | none => path))
  | Except.error (MlemError.fileNotFound _) =>
    match find_object location.path with
    | some path =>
      Except.ok (location.update_path
        (match location.repo with
         | some r => relpath path r
         | none => path))
    | none => Except.error (MlemError.mlemObjectNotFound location.fullpath)
  | Except.error e => Except.error e

/-! ## Helper lemmas on the path primitives -/

theorem toList_append (s t : String) : (s ++ t).data = s.data ++ t.data :=
  String.data_append s t

theorem splitOnSlash_ne_nil (l : List Char) : splitOnSlash l ≠ [] := by
  cases l with
  | nil => simp [splitOnSlash]
  | cons c rest =>
    by_cases h : c = '/'
    · simp [splitOnSlash, h]
    · simp only [splitOnSlash, if_neg h]
      cases hs : splitOnSlash rest <;> simp

theorem splitOnSlash_append_slash (a b : List Char) :
    splitOnSlash (a ++ '/' :: b) = splitOnSlash a ++ splitOnSlash b := by
  induction a with
  | nil => simp [splitOnSlash]
  | cons c cs ih =>
    by_cases h : c = '/'
    · subst h
      simp [splitOnSlash, ih]
    · simp only [List.cons_append, splitOnSlash, if_neg h]
      cases hs : splitOnSlash cs with
      | nil => exact absurd hs (splitOnSlash_ne_nil cs)
      | cons hd tl => simp [ih, hs]

theorem splitOnSlash_noslash (l : List Char) (h : '/' ∉ l) : splitOnSlash l = [l] := by
  induction l with
  | nil => rfl
  | cons c cs ih =>
    have hc : ¬c = '/' := fun hh => h (hh ▸ List.mem_cons_self c cs)
    have hcs : '/' ∉ cs := fun hm => h (List.mem_cons_of_mem _ hm)
    simp only [splitOnSlash, if_neg hc, ih hcs]

theorem getLastD_split_append (a m : List Char) (hm : '/' ∉ m) :
    (splitOnSlash (a ++ '/' :: m)).getLastD [] = m := by
  rw [splitOnSlash_append_slash, splitOnSlash_noslash m hm]
  exact List.getLastD_concat _ _ _

theorem eq_append_slash_of_getLastD {l : List Char} (h : l.getLastD ' ' = '/') :
    ∃ a, l = a ++ ['/'] := by
  cases hl : l.reverse with
  | nil =>
    rw [List.reverse_eq_nil_iff] at hl
    subst hl
    simp [List.getLastD] at h
  | cons c cs =>
    have hw : l = cs.reverse ++ [c] := by
      have h2 := congrArg List.reverse hl
      simpa using h2
    rw [hw, List.getLastD_concat] at h
    exact ⟨cs.reverse, by rw [hw, h]⟩

theorem basename_osJoin_meta (uri : String) :
    basename (osJoin uri META_FILE_NAME) = META_FILE_NAME := by
  have hm : '/' ∉ META_FILE_NAME.data := by decide
  unfold osJoin
  rw [if_neg (by decide : ¬isPrefixL ['/'] META_FILE_NAME.data = true)]
  by_cases he : uri = ""
  · rw [if_pos he]
    decide
  · rw [if_neg he]
    by_cases hsl : uri.data.getLastD ' ' = '/'
    · rw [if_pos hsl]
      obtain ⟨a, ha⟩ := eq_append_slash_of_getLastD hsl
      unfold basename
      rw [toList_append, ha, List.append_assoc, List.singleton_append,
        getLastD_split_append _ _ hm]
    · rw [if_neg hsl]
      unfold basename
      rw [toList_append, toList_append]
      have hsep : ("/" : String).data = ['/'] := by decide
      rw [hsep, List.append_assoc, List.singleton_append,
        getLastD_split_append _ _ hm]

theorem isInfixL_append_left {n : List Char} (a : List Char) {h : List Char}
    (hi : isInfixL n h = true) : isInfixL n (a ++ h) = true := by
  induction a with
  | nil => simpa using hi
  | cons c cs ih =>
    simp only [List.cons_append, isInfixL, Bool.or_eq_true]
    exact Or.inr ih

theorem mlemdir_infix_ext (uri : String) :
    strContains (uri ++ MLEM_EXT) MLEM_DIR = true := by
  unfold strContains
  rw [toList_append]
  exact isInfixL_append_left uri.data (by decide)

theorem lastSeg_append_suffix (m : List Char) (hm : '/' ∉ m) (a : List Char) :
    ∃ x, (splitOnSlash (a ++ m)).getLastD [] = x ++ m := by
  induction a with
  | nil =>
    refine ⟨[], ?_⟩
    rw [List.nil_append, splitOnSlash_noslash m hm]
    rfl
  | cons c a' ih =>
    by_cases hc : c = '/'
    · subst hc
      obtain ⟨x, hx⟩ := ih
      refine ⟨x, ?_⟩
      rw [List.cons_append]
      simp only [splitOnSlash, eq_self_iff_true, if_true]
      rw [List.getLastD_cons]
      exact hx
    · obtain ⟨x, hx⟩ := ih
      rw [List.cons_append]
      simp only [splitOnSlash, if_neg hc]
      cases hs : splitOnSlash (a' ++ m) with
      | nil => exact absurd hs (splitOnSlash_ne_nil _)
      | cons h t =>
        rw [hs] at hx
        cases t with
        | nil =>
          refine ⟨c :: x, ?_⟩
          show ((c :: h) :: ([] : List (List Char))).getLastD [] = (c :: x) ++ m
          rw [List.getLastD_cons] at hx ⊢
          simp only [List.getLastD] at hx ⊢
          rw [hx]
          rfl
        | cons y ys =>
          refine ⟨x, ?_⟩
          show ((c :: h) :: y :: ys).getLastD [] = x ++ m
          rw [List.getLastD_cons] at hx ⊢
          exact hx

theorem basename_append_ext_ne (uri : String) :
    ¬basename (uri ++ MLEM_EXT) = META_FILE_NAME := by
  intro h
  unfold basename at h
  rw [String.data_append] at h
  obtain ⟨x, hx⟩ := lastSeg_append_suffix MLEM_EXT.data (by decide) uri.data
  rw [hx] at h
  have hdata : x ++ MLEM_EXT.data = META_FILE_NAME.data :=
    congrArg String.data h
  have hlen := congrArg List.length hdata
  rw [List.length_append] at hlen
  have h10 : MLEM_EXT.data.length = 10 := by decide
  have h9 : META_FILE_NAME.data.length = 9 := by decide
  omega

theorem append_ext_ne_self (s : String) : s ++ MLEM_EXT ≠ s := by
  intro h
  have hdata : s.data ++ MLEM_EXT.data = s.data := by
    have h2 := congrArg String.data h
    rwa [String.data_append] at h2
  have hlen := congrArg List.length hdata
  rw [List.length_append] at hlen
  have h10 : MLEM_EXT.data.length = 10 := by decide
  omega

theorem isPrefixL_of_append {a b l : List Char} (h : isPrefixL (a ++ b) l = true) :
    isPrefixL a l = true := by
  induction a generalizing l with
  | nil => rfl
  | cons c cs ih =>
    cases l with
    | nil => simp [isPrefixL] at h
    | cons d ds =>
      simp only [List.cons_append, isPrefixL, Bool.and_eq_true] at h ⊢
      exact ⟨h.1, ih h.2⟩

theorem isPrefixL_append_self (a b : List Char) : isPrefixL a (a ++ b) = true := by
  induction a with
  | nil => rfl
  | cons c cs ih => simp [isPrefixL, ih]

theorem dropPrefixL_append_self (a b : List Char) : dropPrefixL a (a ++ b) = some b := by
  induction a with
  | nil => rfl
  | cons c cs ih => simp [dropPrefixL, ih]

theorem isPrefixL_iff_exists {a l : List Char} :
    isPrefixL a l = true ↔ ∃ t, l = a ++ t := by
  constructor
  · intro h
    induction a generalizing l with
    | nil => exact ⟨l, rfl⟩
    | cons c cs ih =>
      cases l with
      | nil => simp [isPrefixL] at h
      | cons d ds =>
        simp only [isPrefixL, Bool.and_eq_true, decide_eq_true_eq] at h
        obtain ⟨t, ht⟩ := ih h.2
        exact ⟨t, by rw [ht, h.1]; rfl⟩
  · intro ⟨t, ht⟩
    rw [ht]
    exact isPrefixL_append_self a t

theorem isInfixL_of_isPrefixL {n l : List Char} (h : isPrefixL n l = true) :
    isInfixL n l = true := by
  cases l with
  | nil => simpa [isInfixL] using h
  | cons c cs => simp [isInfixL, h]

theorem getLastD_append_right (a : List Char) {b : List Char} (hb : b ≠ [])
    (d : Char) : (a ++ b).getLastD d = b.getLastD d := by
  induction a with
  | nil => rfl
  | cons c cs ih =>
    cases hcs : cs ++ b with
    | nil =>
      exact absurd (List.append_eq_nil.mp hcs).2 hb
    | cons x xs =>
      simp only [List.cons_append, List.getLastD_cons, hcs] at ih ⊢
      exact ih

theorem joinSlashL_splitOnSlash (l : List Char) :
    joinSlashL (splitOnSlash l) = l := by
  induction l with
  | nil => rfl
  | cons c cs ih =>
    by_cases h : c = '/'
    · subst h
      simp only [splitOnSlash, eq_self_iff_true, if_true]
      cases hs : splitOnSlash cs with
      | nil => exact absurd hs (splitOnSlash_ne_nil cs)
      | cons x xs =>
        rw [hs] at ih
        rw [← ih]
        rfl
    · simp only [splitOnSlash, if_neg h]
      cases hs : splitOnSlash cs with
      | nil => exact absurd hs (splitOnSlash_ne_nil cs)
      | cons x xs =>
        rw [hs] at ih
        show joinSlashL ((c :: x) :: xs) = c :: cs
        cases xs with
        | nil =>
          simp only [joinSlashL] at ih ⊢
          rw [ih]
        | cons y ys =>
          have hstep : joinSlashL ((c :: x) :: y :: ys) =
              c :: joinSlashL (x :: y :: ys) := rfl
          rw [hstep, ih]

theorem toList_eq_nil {s : String} (h : s.data = []) : s = "" := by
  cases s with
  | mk d =>
    cases d with
    | nil => rfl
    | cons c cs => exact List.noConfusion h

theorem mk_toList (s : String) : String.mk s.data = s := rfl

theorem splitSchemeL_append (s rest : List Char) (h : ':' ∉ s) :
    splitSchemeL (s ++ ':' :: '/' :: '/' :: rest) = some (s, rest) := by
  induction s with
  | nil => rfl
  | cons c cs ih =>
    have hc : c ≠ ':' := fun hh => h (hh ▸ List.mem_cons_self c cs)
    have hcs : ':' ∉ cs := fun hm => h (List.mem_cons_of_mem _ hm)
    rw [List.cons_append, splitSchemeL.eq_def]
    split
    · next heq =>
      exact absurd (List.cons.inj heq).1 hc
    · next c' rest' heq =>
      obtain ⟨rfl, rfl⟩ := List.cons.inj heq
      rw [ih hcs]
      rfl
    · next heq => exact List.noConfusion heq

theorem get_meta_path_err_uri :
    ∀ (u : String) (fs : AbstractFileSystem) (e : MlemError),
      get_meta_path u fs = Except.error e →
      e = MlemError.invalidMetaLocation u ∨ e = MlemError.fileNotFound u := by
  intro u fs e h
  unfold get_meta_path at h
  repeat' split at h
  all_goals simp_all

theorem str_ext {s t : String} (h : s.data = t.data) : s = t := by
  cases s with
  | mk a =>
    cases t with
    | mk b => exact congrArg String.mk h

theorem option_some_bind {A B : Type} (a : A) (f : A → Option B) :
    (Option.some a).bind f = f a := rfl

theorem github_uri_toList (org repo sha p : String) :
    ("https://github.com/" ++ org ++ "/" ++ repo ++ "/tree/" ++ sha ++ "/" ++
        p).data =
      ("https://github.com/" : String).data ++ (org.data ++ '/' ::
        (repo.data ++ '/' :: (("tree" : String).data ++ '/' ::
          (sha.data ++ '/' :: p.data)))) := by
  have h2 : ("/" : String).data = ['/'] := by decide
  have h3 : ("/tree/" : String).data =
      '/' :: (("tree" : String).data ++ ['/']) := by decide
  simp only [String.data_append, h2, h3, List.append_assoc,
    List.singleton_append, List.cons_append, List.nil_append]

theorem get_github_kwargs_tree (org repo sha p : String) (ho : org ≠ "")
    (hr : repo ≠ "") (ho2 : '/' ∉ org.data) (hr2 : '/' ∉ repo.data)
    (hs2 : '/' ∉ sha.data) :
    get_github_kwargs ("https://github.com/" ++ org ++ "/" ++ repo ++ "/tree/" ++
      sha ++ "/" ++ p) = some ⟨org, repo, some sha, p⟩ := by
  have hone : org.data ≠ [] := fun hh => ho (toList_eq_nil hh)
  have hrne : repo.data ≠ [] := fun hh => hr (toList_eq_nil hh)
  have hsplit : splitOnSlash (org.data ++ '/' :: (repo.data ++ '/' ::
      (("tree" : String).data ++ '/' :: (sha.data ++ '/' :: p.data)))) =
      org.data :: repo.data :: ("tree" : String).data :: sha.data ::
        splitOnSlash p.data := by
    rw [splitOnSlash_append_slash, splitOnSlash_noslash _ ho2,
      splitOnSlash_append_slash, splitOnSlash_noslash _ hr2,
      splitOnSlash_append_slash,
      splitOnSlash_noslash ("tree" : String).data (by decide),
      splitOnSlash_append_slash, splitOnSlash_noslash _ hs2]
    simp
  unfold get_github_kwargs
  rw [github_uri_toList, dropPrefixL_append_self, option_some_bind, hsplit]
  simp [parseGithubSegs, hone, hrne, mk_toList, joinSlashL_splitOnSlash]

theorem not_startsWith_github {s : String} (hc : ':' ∉ s.data)
    (hs : s ≠ "https") (p : String) :
    startsWithStr (s ++ "://" ++ p) "https://github.com" = false := by
  cases hsw : startsWithStr (s ++ "://" ++ p) "https://github.com" with
  | false => rfl
  | true =>
    exfalso
    unfold startsWithStr at hsw
    obtain ⟨t, ht⟩ := isPrefixL_iff_exists.mp hsw
    have h1 : splitSchemeL ((s ++ "://" ++ p)).data =
        some (s.data, p.data) := by
      rw [toList_append, toList_append]
      have h2 : ("://" : String).data = [':', '/', '/'] := by decide
      rw [h2, List.append_assoc]
      exact splitSchemeL_append s.data p.data hc
    have h3 : splitSchemeL ((s ++ "://" ++ p)).data =
        some (("https" : String).data, ("github.com" : String).data ++ t) := by
      rw [ht]
      have h4 : ("https://github.com" : String).data =
          ("https" : String).data ++ ':' :: '/' :: '/' ::
            ("github.com" : String).data := by decide
      rw [h4, List.append_assoc]
      exact splitSchemeL_append ("https" : String).data
        (("github.com" : String).data ++ t) (by decide)
    rw [h1] at h3
    have h5 := Option.some.inj h3
    have h6 : s.data = ("https" : String).data := congrArg Prod.fst h5
    exact hs (str_ext h6)

theorem listP_no_match_uri (hd : String) (tl : List String) (p : String)
    (h : ∀ q ∈ hd :: tl, startsWithStr p q = false) :
    get_path_by_fs_path (FSKind.generic (ProtoAttr.listP hd tl)) p =
      hd ++ "://" ++ p := by
  have hany : (hd :: tl).any (fun q => startsWithStr p q) = false := by
    rw [List.any_eq_false]
    intro q hq
    simp [h q hq]
  have hhd : startsWithStr p (hd ++ "://") = false := by
    cases hp : startsWithStr p (hd ++ "://") with
    | false => rfl
    | true =>
      unfold startsWithStr at hp
      rw [toList_append] at hp
      have h2 := isPrefixL_of_append hp
      have h3 := h hd (List.mem_cons_self hd tl)
      unfold startsWithStr at h3
      rw [h3] at h2
      exact Bool.noConfusion h2
  simp [get_path_by_fs_path, hany, hhd]

theorem scheme_uri_get_fs (table : SchemeTable) (s p : String) (attr : ProtoAttr)
    (hc : ':' ∉ s.data) (hs : s ≠ "https") (htab : table s = some attr) :
    get_fs table (s ++ "://" ++ p) none = some (FSKind.generic attr, p) := by
  have hng := not_startsWith_github hc hs p
  have hscheme : splitSchemeL (s.data ++ ':' :: '/' :: '/' :: p.data) =
      some (s.data, p.data) := splitSchemeL_append s.data p.data hc
  unfold get_fs
  simp [hng, hscheme, mk_toList, htab]

theorem ne_empty_of_data {s : String} (h : s.data ≠ []) : s ≠ "" :=
  fun hh => h (by rw [hh])

theorem getLastD_data_append (a b : String) (hb : b.data ≠ []) :
    (a ++ b).data.getLastD ' ' = b.data.getLastD ' ' := by
  rw [String.data_append]
  exact getLastD_append_right _ hb ' '

theorem getLastD_ne_slash_of_not_mem {l : List Char} (hne : l ≠ [])
    (h : '/' ∉ l) : l.getLastD ' ' ≠ '/' := by
  cases l with
  | nil => exact absurd rfl hne
  | cons c cs =>
    rw [List.getLastD_cons]
    intro hh
    exact h (hh ▸ List.getLastD_mem_cons cs c)

theorem osJoin_std (a b : String) (hb : isPrefixL ['/'] b.data = false)
    (ha : a ≠ "") (hl : ¬a.data.getLastD ' ' = '/') :
    osJoin a b = a ++ "/" ++ b := by
  unfold osJoin
  rw [if_neg (by simp [hb] : ¬isPrefixL ['/'] b.data = true), if_neg ha,
    if_neg hl]

theorem osJoin_endslash (a b : String) (hb : isPrefixL ['/'] b.data = false)
    (ha : a ≠ "") (hl : a.data.getLastD ' ' = '/') :
    osJoin a b = a ++ b := by
  unfold osJoin
  rw [if_neg (by simp [hb] : ¬isPrefixL ['/'] b.data = true), if_neg ha,
    if_pos hl]

theorem github_plain_uri_toList (org rn : String) :
    ("https://github.com/" ++ org ++ "/" ++ rn).data =
      ("https://github.com/" : String).data ++ (org.data ++ '/' :: rn.data) := by
  have h2 : ("/" : String).data = ['/'] := by decide
  simp only [String.data_append, h2, List.append_assoc, List.singleton_append,
    List.cons_append, List.nil_append]

theorem get_github_kwargs_plain (org rn : String) (ho : org ≠ "") (hr : rn ≠ "")
    (ho2 : '/' ∉ org.data) (hr2 : '/' ∉ rn.data) :
    get_github_kwargs ("https://github.com/" ++ org ++ "/" ++ rn) =
      some ⟨org, rn, none, ""⟩ := by
  have hone : org.data ≠ [] := fun hh => ho (toList_eq_nil hh)
  have hrne : rn.data ≠ [] := fun hh => hr (toList_eq_nil hh)
  have hsplit : splitOnSlash (org.data ++ '/' :: rn.data) =
      org.data :: [rn.data] := by
    rw [splitOnSlash_append_slash, splitOnSlash_noslash _ ho2,
      splitOnSlash_noslash _ hr2]
    simp
  unfold get_github_kwargs
  rw [github_plain_uri_toList, dropPrefixL_append_self, option_some_bind,
    hsplit]
  simp [parseGithubSegs, hone, hrne, mk_toList]

theorem startsWith_github_plain (org rn : String) :
    startsWithStr ("https://github.com/" ++ org ++ "/" ++ rn)
      "https://github.com" = true := by
  unfold startsWithStr
  rw [github_plain_uri_toList]
  have hgg : ("https://github.com/" : String).data =
      ("https://github.com" : String).data ++ ['/'] := by decide
  rw [hgg, List.append_assoc]
  exact isPrefixL_append_self _ _

theorem get_fs_github_plain (table : SchemeTable) (org rn : String)
    (ho : org ≠ "") (hr : rn ≠ "") (ho2 : '/' ∉ org.data)
    (hr2 : '/' ∉ rn.data) :
    get_fs table ("https://github.com/" ++ org ++ "/" ++ rn) none =
      some (FSKind.github org rn "", "") := by
  unfold get_fs
  simp [startsWith_github_plain org rn,
    get_github_kwargs_plain org rn ho hr ho2 hr2]

theorem strSplitSlash_github_plain (org rn : String) (ho2 : '/' ∉ org.data)
    (hr2 : '/' ∉ rn.data) :
    strSplitSlash ("https://github.com/" ++ org ++ "/" ++ rn) =
      ["https:", "", "github.com", org, rn] := by
  unfold strSplitSlash
  rw [github_plain_uri_toList]
  have hshape : ("https://github.com/" : String).data ++
      (org.data ++ '/' :: rn.data) =
      ("https:" : String).data ++ '/' :: (([] : List Char) ++ '/' ::
        (("github.com" : String).data ++ '/' :: (org.data ++ '/' :: rn.data))) := by
    have hlit : ("https://github.com/" : String).data =
        ("https:" : String).data ++ '/' :: (([] : List Char) ++ '/' ::
          (("github.com" : String).data ++ ['/'])) := by decide
    rw [hlit]
    simp [List.append_assoc, List.cons_append, List.singleton_append]
  rw [hshape, splitOnSlash_append_slash, splitOnSlash_noslash _ (by decide),
    splitOnSlash_append_slash, splitOnSlash_noslash _ (by decide),
    splitOnSlash_append_slash, splitOnSlash_noslash _ (by decide),
    splitOnSlash_append_slash, splitOnSlash_noslash _ ho2,
    splitOnSlash_noslash _ hr2]
  simp [mk_toList]

theorem path_split_post_github_plain (org rn : String) (ho2 : '/' ∉ org.data)
    (hr2 : '/' ∉ rn.data) :
    path_split_post ("https://github.com/" ++ org ++ "/" ++ rn) "" =
      "https://github.com/" ++ org := by
  unfold path_split_post
  rw [strSplitSlash_github_plain org rn ho2 hr2]
  have hempty : strSplitSlash "" = [""] := rfl
  rw [hempty]
  apply str_ext
  show (joinSlash (List.take (5 - 1)
    ["https:", "", "github.com", org, rn])).data =
    ("https://github.com/" ++ org).data
  have htake : List.take (5 - 1) ["https:", "", "github.com", org, rn] =
      ["https:", "", "github.com", org] := rfl
  rw [htake]
  show joinSlashL [("https:" : String).data, ("" : String).data,
    ("github.com" : String).data, org.data] = ("https://github.com/" ++ org).data
  simp [joinSlashL, String.data_append]

/-! ## C1: first-match discovery policy -/

/-- C1: `get_meta_path` tries exactly the four candidate interpretations in the
fixed source order; whenever rule `k` matches and no lower-numbered rule does,
the result is rule `k`'s path, and conversely every success is produced by the
lowest-numbered matching rule. -/
theorem get_meta_path_first_match :
    (∀ (fs : AbstractFileSystem) (uri : String) (k : Fin 4),
        ruleCond k uri fs = true →
        (∀ j : Fin 4, j < k → ruleCond j uri fs = false) →
        get_meta_path uri fs = Except.ok (ruleResult k uri)) ∧
    (∀ (fs : AbstractFileSystem) (uri : String) (r : String),
        get_meta_path uri fs = Except.ok r →
        ∃ k : Fin 4, ruleCond k uri fs = true ∧
          (∀ j : Fin 4, j < k → ruleCond j uri fs = false) ∧
          r = ruleResult k uri) := by
  constructor
  · intro fs uri k hk hmin
    fin_cases k
    · simp only [ruleCond] at hk
      simp [get_meta_path, ruleResult, hk]
    · have h0 := hmin 0 (by decide)
      simp only [ruleCond] at hk h0
      simp [get_meta_path, ruleResult, hk, h0]
    · have h0 := hmin 0 (by decide)
      have h1 := hmin 1 (by decide)
      simp only [ruleCond] at hk h0 h1
      simp [get_meta_path, ruleResult, hk, h0, h1]
    · have h0 := hmin 0 (by decide)
      have h1 := hmin 1 (by decide)
      have h2 := hmin 2 (by decide)
      simp only [ruleCond] at hk h0 h1 h2
      simp [get_meta_path, ruleResult, hk, h0, h1, h2]
  · intro fs uri r h
    unfold get_meta_path at h
    cases hc0 : (basename uri = META_FILE_NAME && fs.isfile uri) with
    | true =>
      refine ⟨0, hc0, ?_, ?_⟩
      · intro j hj
        exact absurd hj (Fin.not_lt_zero j)
      · simp [hc0] at h
        simp [ruleResult, h]
    | false =>
    cases hc1 : (fs.isdir uri && fs.isfile (osJoin uri META_FILE_NAME)) with
    | true =>
      refine ⟨1, hc1, ?_, ?_⟩
      · intro j hj
        fin_cases j
        · exact hc0
        · exact absurd hj (by decide)
        · exact absurd hj (by decide)
        · exact absurd hj (by decide)
      · simp [hc0, hc1] at h
        simp [ruleResult, h]
    | false =>
    cases hc2 : fs.isfile (uri ++ MLEM_EXT) with
    | true =>
      refine ⟨2, hc2, ?_, ?_⟩
      · intro j hj
        fin_cases j
        · exact hc0
        · exact hc1
        · exact absurd hj (by decide)
        · exact absurd hj (by decide)
      · simp [hc0, hc1, hc2] at h
        simp [ruleResult, h]
    | false =>
    cases hc3 : (strContains uri MLEM_DIR && fs.isfile uri) with
    | true =>
      refine ⟨3, hc3, ?_, ?_⟩
      · intro j hj
        fin_cases j
        · exact hc0
        · exact hc1
        · exact hc2
        · exact absurd hj (by decide)
      · simp [hc0, hc1, hc2, hc3] at h
        simp [ruleResult, h]
    | false =>
      cases hex : fs.fexists uri <;> simp [hc0, hc1, hc2, hc3, hex] at h

/-- Witness for C1 at a path matching rules 2 and 3 simultaneously: the
lowest-numbered match (rule 2, directory with metafile inside) wins. -/
theorem get_meta_path_first_match_witness :
    get_meta_path "d" (mkFS ["d/mlem.yaml", "d.mlem.yaml"] ["d"]) =
      Except.ok "d/mlem.yaml" := by
  have h := get_meta_path_first_match.1
    (mkFS ["d/mlem.yaml", "d.mlem.yaml"] ["d"]) "d" 1 (by decide) (by decide)
  exact h

/-! ## C2: missing vs. invalid distinction -/

/-- C2: when none of the four discovery rules matches, `get_meta_path` fails
with the "not a valid metadata location" error exactly when the path exists,
and with the "not found" error exactly when it does not; the two error values
are never equal. -/
theorem get_meta_path_error_split :
    ∀ (fs : AbstractFileSystem) (uri : String),
      (∀ k : Fin 4, ruleCond k uri fs = false) →
      (fs.fexists uri = true →
        get_meta_path uri fs = Except.error (MlemError.invalidMetaLocation uri)) ∧
      (fs.fexists uri = false →
        get_meta_path uri fs = Except.error (MlemError.fileNotFound uri)) ∧
      (∀ u v : String, MlemError.invalidMetaLocation u ≠ MlemError.fileNotFound v) := by
  intro fs uri h
  have h0 := h 0
  have h1 := h 1
  have h2 := h 2
  have h3 := h 3
  simp only [ruleCond] at h0 h1 h2 h3
  refine ⟨?_, ?_, ?_⟩
  · intro hex
    simp [get_meta_path, h0, h1, h2, h3, hex]
  · intro hex
    simp [get_meta_path, h0, h1, h2, h3, hex]
  · intro u v hne
    exact MlemError.noConfusion hne

/-- Witness for C2: an existing plain file yields the invalid-location error,
a nonexistent path the not-found error. -/
theorem get_meta_path_error_split_witness :
    get_meta_path "readme.txt" (mkFS ["readme.txt"] []) =
        Except.error (MlemError.invalidMetaLocation "readme.txt") ∧
      get_meta_path "missing/path" (mkFS ["readme.txt"] []) =
        Except.error (MlemError.fileNotFound "missing/path") := by
  constructor
  · exact (get_meta_path_error_split (mkFS ["readme.txt"] []) "readme.txt"
      (by decide)).1 (by decide)
  · exact (get_meta_path_error_split (mkFS ["readme.txt"] []) "missing/path"
      (by decide)).2.1 (by decide)

/-! ## C4: idempotence of discovery (corrected) -/

/-- C4 counterexample: with files `a.mlem.yaml` and `a.mlem.yaml.mlem.yaml`
present, discovery of `"a"` yields `a.mlem.yaml` (rule 3), but re-applying
`get_meta_path` to that result yields the doubled-suffix path, not the same
path, and rule 1 does not match the first result. -/
theorem get_meta_path_idem_counterexample :
    get_meta_path "a" (mkFS ["a.mlem.yaml", "a.mlem.yaml.mlem.yaml"] []) =
        Except.ok "a.mlem.yaml" ∧
      get_meta_path "a.mlem.yaml" (mkFS ["a.mlem.yaml", "a.mlem.yaml.mlem.yaml"] []) =
        Except.ok "a.mlem.yaml.mlem.yaml" ∧
      ruleCond 0 "a.mlem.yaml" (mkFS ["a.mlem.yaml", "a.mlem.yaml.mlem.yaml"] []) =
        false := by
  decide

/-- C4 amended: on a backend where no path is both a file and a directory,
re-applying `get_meta_path` to the result produced by rule `k` returns that
same path unchanged, except exactly when `k` is rule 3 and a file exists at
the result plus the metadata suffix, in which case the doubled-suffix path is
returned; rule 1 matches the result if and only if it was produced by rule 1
or rule 2, and when a rule-3 or rule-4 result is returned unchanged the rule
matching on the second application is rule 4 — rules 1-3 all fail (the
metadata suffix contains the registry directory name as a substring). -/
theorem get_meta_path_idem_amended :
    ∀ (fs : AbstractFileSystem) (uri r : String) (k : Fin 4),
      WFfs fs →
      ruleCond k uri fs = true →
      (∀ j : Fin 4, j < k → ruleCond j uri fs = false) →
      r = ruleResult k uri →
      (¬(k = 2 ∧ fs.isfile (r ++ MLEM_EXT) = true) →
        get_meta_path r fs = Except.ok r) ∧
      (k = 2 → fs.isfile (r ++ MLEM_EXT) = true →
        get_meta_path r fs = Except.ok (r ++ MLEM_EXT)) ∧
      (ruleCond 0 r fs = true ↔ (k = 0 ∨ k = 1)) ∧
      ((k = 2 ∨ k = 3) → get_meta_path r fs = Except.ok r →
        ruleCond 0 r fs = false ∧ ruleCond 1 r fs = false ∧
        ruleCond 2 r fs = false ∧ ruleCond 3 r fs = true) := by
  intro fs uri r k hwf hk hmin hr
  fin_cases k
  · -- rule 1 produced r = uri
    simp only [ruleCond, ruleResult] at hk hr
    subst hr
    refine ⟨?_, ?_, ?_, ?_⟩
    · intro _
      simp [get_meta_path, hk]
    · intro h2
      exact absurd h2 (by decide)
    · constructor
      · intro _
        exact Or.inl (by decide)
      · intro _
        simp only [ruleCond]
        exact hk
    · intro h34
      rcases h34 with h | h <;> exact absurd h (by decide)
  · -- rule 2 produced r = osJoin uri META_FILE_NAME
    simp only [ruleCond, ruleResult] at hk hr
    subst hr
    have hc1 := hk
    rw [Bool.and_eq_true] at hc1
    have hb := basename_osJoin_meta uri
    have hc0r : (decide (basename (osJoin uri META_FILE_NAME) = META_FILE_NAME)
        && fs.isfile (osJoin uri META_FILE_NAME)) = true := by
      simp [hb, hc1.2]
    refine ⟨?_, ?_, ?_, ?_⟩
    · intro _
      simp [get_meta_path, hc0r]
    · intro h2
      exact absurd h2 (by decide)
    · constructor
      · intro _
        exact Or.inr (by decide)
      · intro _
        simp only [ruleCond]
        exact hc0r
    · intro h34
      rcases h34 with h | h <;> exact absurd h (by decide)
  · -- rule 3 produced r = uri ++ MLEM_EXT
    simp only [ruleCond, ruleResult] at hk hr
    subst hr
    have hbne := basename_append_ext_ne uri
    have hdr : fs.isdir (uri ++ MLEM_EXT) = false := by
      cases hdd : fs.isdir (uri ++ MLEM_EXT) with
      | true => exact absurd ⟨hk, hdd⟩ (hwf _)
      | false => rfl
    have hc0r : (decide (basename (uri ++ MLEM_EXT) = META_FILE_NAME) &&
        fs.isfile (uri ++ MLEM_EXT)) = false := by
      simp [hbne]
    have hc1r : (fs.isdir (uri ++ MLEM_EXT) &&
        fs.isfile (osJoin (uri ++ MLEM_EXT) META_FILE_NAME)) = false := by
      simp [hdr]
    have hin := mlemdir_infix_ext uri
    refine ⟨?_, ?_, ?_, ?_⟩
    · intro hno
      have hne : fs.isfile (uri ++ MLEM_EXT ++ MLEM_EXT) = false := by
        cases hff : fs.isfile (uri ++ MLEM_EXT ++ MLEM_EXT) with
        | true => exact absurd ⟨by decide, hff⟩ hno
        | false => rfl
      simp [get_meta_path, hc0r, hc1r, hne, hin, hk]
    · intro _ hff
      simp [get_meta_path, hc0r, hc1r, hff]
    · constructor
      · intro hc
        exfalso
        simp only [ruleCond] at hc
        rw [hc0r] at hc
        exact Bool.noConfusion hc
      · intro hor
        rcases hor with h | h <;> exact absurd h (by decide)
    · intro _ hok
      have hne : fs.isfile (uri ++ MLEM_EXT ++ MLEM_EXT) = false := by
        cases hff : fs.isfile (uri ++ MLEM_EXT ++ MLEM_EXT) with
        | false => rfl
        | true =>
          exfalso
          have hdb : get_meta_path (uri ++ MLEM_EXT) fs =
              Except.ok (uri ++ MLEM_EXT ++ MLEM_EXT) := by
            simp [get_meta_path, hc0r, hc1r, hff]
          rw [hok] at hdb
          have hinj := Except.ok.inj hdb
          exact absurd hinj.symm (append_ext_ne_self (uri ++ MLEM_EXT))
      refine ⟨?_, ?_, ?_, ?_⟩
      · simp only [ruleCond]
        exact hc0r
      · simp only [ruleCond]
        exact hc1r
      · simp only [ruleCond]
        exact hne
      · simp only [ruleCond]
        simp [hin, hk]
  · -- rule 4 produced r = uri
    have h0 := hmin 0 (by decide)
    have h1 := hmin 1 (by decide)
    have h2 := hmin 2 (by decide)
    simp only [ruleCond, ruleResult] at hk hr h0 h1 h2
    subst hr
    refine ⟨?_, ?_, ?_, ?_⟩
    · intro _
      simp [get_meta_path, h0, h1, h2, hk]
    · intro hh
      exact absurd hh (by decide)
    · constructor
      · intro hc
        exfalso
        simp only [ruleCond] at hc
        rw [h0] at hc
        exact Bool.noConfusion hc
      · intro hor
        rcases hor with h | h <;> exact absurd h (by decide)
    · intro _ _
      refine ⟨?_, ?_, ?_, ?_⟩
      · simp only [ruleCond]
        exact h0
      · simp only [ruleCond]
        exact h1
      · simp only [ruleCond]
        exact h2
      · simp only [ruleCond]
        exact hk

/-- Witness for the amended C4: a rule-2 result re-matches unchanged via
rule 1, and a rule-3 result with a doubled-suffix file present returns the
doubled path on the second application. -/
theorem get_meta_path_idem_amended_witness :
    get_meta_path "m/mlem.yaml" (mkFS ["m/mlem.yaml"] ["m"]) =
        Except.ok "m/mlem.yaml" ∧
      get_meta_path "a.mlem.yaml"
          (mkFS ["a.mlem.yaml", "a.mlem.yaml.mlem.yaml"] []) =
        Except.ok ("a.mlem.yaml" ++ MLEM_EXT) := by
  constructor
  · exact (get_meta_path_idem_amended (mkFS ["m/mlem.yaml"] ["m"]) "m"
      "m/mlem.yaml" 1
      (fun p hp => by
        simp [mkFS] at hp
        obtain ⟨h1, h2⟩ := hp
        subst h1
        exact absurd h2 (by decide))
      (by decide) (by decide) (by decide)).1 (by decide)
  · exact (get_meta_path_idem_amended
      (mkFS ["a.mlem.yaml", "a.mlem.yaml.mlem.yaml"] []) "a" "a.mlem.yaml" 2
      (fun p hp => by simpa [mkFS] using hp.2)
      (by decide) (by decide) (by decide)).2.1 (by decide) (by decide)

/-! ## C5: rule 4 is a substring test, not a segment test (corrected) -/

/-- C5 counterexample: `foo.mlemx` contains `.mlem` only inside a single
segment (it is not a path segment), earlier rules do not match, yet
`get_meta_path` returns the path unchanged via rule 4 instead of failing. -/
theorem rule4_substring_counterexample :
    get_meta_path "foo.mlemx" (mkFS ["foo.mlemx"] []) = Except.ok "foo.mlemx" ∧
      (strSplitSlash "foo.mlemx").contains MLEM_DIR = false ∧
      ruleCond 0 "foo.mlemx" (mkFS ["foo.mlemx"] []) = false ∧
      ruleCond 1 "foo.mlemx" (mkFS ["foo.mlemx"] []) = false ∧
      ruleCond 2 "foo.mlemx" (mkFS ["foo.mlemx"] []) = false := by
  decide

/-- C5 amended: when rules 1-3 fail, rule 4 matches exactly when the registry
directory name occurs as a substring (python `in`) of the uri and the uri is a
file, in which case the uri is returned unchanged. -/
theorem rule4_substring_exact :
    ∀ (fs : AbstractFileSystem) (uri : String),
      ruleCond 0 uri fs = false → ruleCond 1 uri fs = false →
      ruleCond 2 uri fs = false →
      (get_meta_path uri fs = Except.ok uri ↔
        strContains uri MLEM_DIR = true ∧ fs.isfile uri = true) := by
  intro fs uri h0 h1 h2
  simp only [ruleCond] at h0 h1 h2
  cases hc3 : (strContains uri MLEM_DIR && fs.isfile uri) with
  | true =>
    have hc3' := hc3
    rw [Bool.and_eq_true] at hc3'
    have hc := hc3'
    constructor
    · intro _
      exact hc
    · intro _
      simp [get_meta_path, h0, h1, h2, hc3]
  | false =>
    constructor
    · intro h
      cases hex : fs.fexists uri <;>
        simp [get_meta_path, h0, h1, h2, hc3, hex] at h
    · intro hc
      simp [hc.1, hc.2] at hc3

/-- Witness for the amended C5 at an internally-tracked registry file. -/
theorem rule4_substring_exact_witness :
    get_meta_path ".mlem/link" (mkFS [".mlem/link"] []) = Except.ok ".mlem/link" :=
  (rule4_substring_exact (mkFS [".mlem/link"] []) ".mlem/link"
    (by decide) (by decide) (by decide)).mpr (by decide)

/-! ## C10: bare protocol-name prefixes suppress the scheme prefix -/

/-- C10: for a non-Github backend whose protocol attribute is a sequence,
`get_path_by_fs_path` returns the path unchanged whenever it starts with one of
the bare protocol names (no `://` needed), and otherwise prefixes it with the
first listed protocol followed by `://`; so the reconstructed URI need not
carry a protocol prefix. -/
theorem get_path_by_fs_path_list_proto :
    ∀ (hd : String) (tl : List String) (path : String),
      get_path_by_fs_path (FSKind.generic (ProtoAttr.listP hd tl)) path =
        if (hd :: tl).any (fun q => startsWithStr path q) then path
        else hd ++ "://" ++ path := by
  intro hd tl path
  unfold get_path_by_fs_path
  cases hany : (hd :: tl).any (fun q => startsWithStr path q) with
  | true => simp [hany]
  | false =>
    have hhd : ¬startsWithStr path hd = true := by
      have h1 := List.any_eq_false.mp hany hd (List.mem_cons_self hd tl)
      simpa using h1
    have hpre : startsWithStr path (hd ++ "://") = false := by
      cases hp : startsWithStr path (hd ++ "://") with
      | false => rfl
      | true =>
        unfold startsWithStr at hp
        rw [toList_append] at hp
        exact absurd (isPrefixL_of_append hp) hhd
    simp [hany, hpre]

/-! ## C7: the github-revision branch never trips its assertion -/

/-- C7: resolving any uri that starts with the hosted-repo browse prefix (with
no protocol hint) yields the Github backend whenever it yields a backend at
all, so the `isinstance` assertion in `get_path_by_repo_path_rev`'s
revision branch never fires: whenever `get_fs` succeeds on the repo, the
branch completes with empty extra options. -/
theorem get_fs_github_assert :
    (∀ (table : SchemeTable) (uri : String) (k : FSKind) (path : String),
        startsWithStr uri "https://github.com" = true →
        get_fs table uri none = some (k, path) →
        ∃ org repo root, k = FSKind.github org repo root) ∧
    (∀ (table : SchemeTable) (repo path r : String) (k : FSKind) (rp : String),
        startsWithStr repo "https://github.com" = true →
        get_fs table repo none = some (k, rp) →
        ∃ uri, get_path_by_repo_path_rev table repo path (some r) =
          some (uri, [])) := by
  have main : ∀ (table : SchemeTable) (uri : String) (k : FSKind) (path : String),
      startsWithStr uri "https://github.com" = true →
      get_fs table uri none = some (k, path) →
      ∃ org repo root, k = FSKind.github org repo root := by
    intro table uri k path hs h
    unfold get_fs at h
    simp only [hs, decide_True, Bool.and_true, if_true] at h
    cases hkw : get_github_kwargs uri with
    | none => simp [hkw] at h
    | some kw =>
      simp only [hkw] at h
      obtain ⟨hk, _⟩ := Prod.mk.injEq .. ▸ (Option.some.inj h)
      exact ⟨kw.org, kw.repo, kw.sha.getD "", hk.symm⟩
  constructor
  · exact main
  · intro table repo path r k rp hs h
    obtain ⟨org, gr, root, hk⟩ := main table repo k rp hs h
    subst hk
    refine ⟨osJoin (osJoin (osJoin (osJoin
      (path_split_post repo rp) "tree") r) rp) path, ?_⟩
    unfold get_path_by_repo_path_rev
    simp [hs, h]

/-- Witness for C7 at a concrete browse URL. -/
theorem get_fs_github_assert_witness :
    ∃ org repo root,
      (FSKind.github "org" "repo" "" : FSKind) = FSKind.github org repo root :=
  get_fs_github_assert.1 demoTable "https://github.com/org/repo"
    (FSKind.github "org" "repo" "") "" (by decide) (by decide)

/-! ## C8: load_meta type check -/

/-- C8: a successful `load_meta` returns the read object unchanged and it is an
instance of the caller-demanded type (`force_type` when supplied, the base meta
type otherwise); a non-instance read object makes `load_meta` fail with the
type-mismatch error, with no retry or fallback. -/
theorem load_meta_type_check :
    ∀ (m : MlemMetaObj) (ft : Option MlemMetaType),
      (∀ r, load_meta m ft = Except.ok r →
        r = m ∧ isInstanceOf r.ty (ft.getD MlemMetaType.mlemMeta) = true) ∧
      (isInstanceOf m.ty (ft.getD MlemMetaType.mlemMeta) = false →
        load_meta m ft =
          Except.error (MlemError.typeError "Wrong type of meta loaded")) := by
  intro m ft
  constructor
  · intro r h
    unfold load_meta at h
    cases hi : isInstanceOf m.ty (ft.getD MlemMetaType.mlemMeta) with
    | true =>
      simp only [hi, if_true] at h
      obtain rfl : m = r := Except.ok.inj h
      exact ⟨rfl, hi⟩
    | false => simp [hi] at h
  · intro hi
    simp [load_meta, hi]

/-- Witness for C8: a model meta satisfies a demanded model type; a dataset
meta demanded as a model fails with the type error. -/
theorem load_meta_type_check_witness :
    ((⟨MlemMetaType.modelMeta, "m"⟩ : MlemMetaObj) =
        (⟨MlemMetaType.modelMeta, "m"⟩ : MlemMetaObj) ∧
      isInstanceOf MlemMetaType.modelMeta
        ((some MlemMetaType.modelMeta).getD MlemMetaType.mlemMeta) = true) ∧
    load_meta ⟨MlemMetaType.datasetMeta, "d"⟩ (some MlemMetaType.modelMeta) =
      Except.error (MlemError.typeError "Wrong type of meta loaded") := by
  constructor
  · exact (load_meta_type_check ⟨MlemMetaType.modelMeta, "m"⟩
      (some MlemMetaType.modelMeta)).1 ⟨MlemMetaType.modelMeta, "m"⟩ (by decide)
  · exact (load_meta_type_check ⟨MlemMetaType.datasetMeta, "d"⟩
      (some MlemMetaType.modelMeta)).2 (by decide)

/-! ## C9: find_meta_location frame conditions -/

/-- C9: a successful `find_meta_location` returns a fresh descriptor sharing
the input's backend, repo and revision, whose path is the discovered path
(repo-relative when a repo root is set), obtained either by direct discovery or
— only on the not-found outcome — by the registry lookup; when the registry
lookup also fails the result is the MlemObjectNotFound error, and the
invalid-location error propagates without consulting the registry. -/
theorem find_meta_location_frame :
    ∀ (fo : String → Option String) (loc res : Location),
      (find_meta_location fo loc = Except.ok res →
        res.fs = loc.fs ∧ res.repo = loc.repo ∧ res.rev = loc.rev ∧
        ∃ p, (get_meta_path loc.fullpath loc.fs = Except.ok p ∨
              (get_meta_path loc.fullpath loc.fs =
                  Except.error (MlemError.fileNotFound loc.fullpath) ∧
                fo loc.path = some p)) ∧
          res.path = (match loc.repo with
                      | some r => relpath p r
                      | none => p)) ∧
      (get_meta_path loc.fullpath loc.fs =
          Except.error (MlemError.fileNotFound loc.fullpath) →
        fo loc.path = none →
        find_meta_location fo loc =
          Except.error (MlemError.mlemObjectNotFound loc.fullpath)) ∧
      (get_meta_path loc.fullpath loc.fs =
          Except.error (MlemError.invalidMetaLocation loc.fullpath) →
        find_meta_location fo loc =
          Except.error (MlemError.invalidMetaLocation loc.fullpath)) := by
  intro fo loc res
  refine ⟨?_, ?_, ?_⟩
  · intro h
    unfold find_meta_location at h
    cases hm : get_meta_path loc.fullpath loc.fs with
    | ok p =>
      rw [hm] at h
      have hres := Except.ok.inj h
      subst hres
      exact ⟨rfl, rfl, rfl, p, Or.inl rfl, rfl⟩
    | error e =>
      rw [hm] at h
      cases e with
      | fileNotFound s =>
        have hsu : s = loc.fullpath := by
          rcases get_meta_path_err_uri loc.fullpath loc.fs _ hm with h1 | h2
          · exact absurd h1 (by simp)
          · exact MlemError.fileNotFound.inj h2
        subst hsu
        cases hfo : fo loc.path with
        | some p =>
          rw [hfo] at h
          have hres := Except.ok.inj h
          subst hres
          exact ⟨rfl, rfl, rfl, p, Or.inr ⟨rfl, rfl⟩, rfl⟩
        | none =>
          rw [hfo] at h
          exact absurd h (by simp)
      | invalidMetaLocation s => simp at h
      | mlemObjectNotFound s => simp at h
      | typeError s => simp at h
  · intro hnf hfo
    unfold find_meta_location
    simp [hnf, hfo]
  · intro hinv
    unfold find_meta_location
    simp [hinv]

/-- Witness for C9: a location with nothing on the backend and an empty
registry lookup yields the MlemObjectNotFound error. -/
theorem find_meta_location_frame_witness :
    find_meta_location (fun _ => none) ⟨"missing", none, none, mkFS [] []⟩ =
      Except.error (MlemError.mlemObjectNotFound
        (Location.fullpath ⟨"missing", none, none, mkFS [] []⟩)) :=
  (find_meta_location_frame (fun _ => none) ⟨"missing", none, none, mkFS [] []⟩
    ⟨"missing", none, none, mkFS [] []⟩).2.1 (by decide) rfl

/-! ## C3: URI round trip (corrected) -/

/-- C3 counterexample: a descriptor resolved from the canonical URI
`gs://gcs_data` reconstructs to the bare path `gcs_data` (the path starts with
the bare protocol alias `gcs`), which re-resolves under the local backend, so
the round trip changes the backend protocol. -/
theorem resolve_roundtrip_counterexample :
    get_fs demoTable "gs://gcs_data" none =
        some (FSKind.generic (ProtoAttr.listP "gs" ["gcs"]), "gcs_data") ∧
      get_path_by_fs_path (FSKind.generic (ProtoAttr.listP "gs" ["gcs"]))
        "gcs_data" = "gcs_data" ∧
      get_fs demoTable "gcs_data" none =
        some (FSKind.generic (ProtoAttr.listP "file" ["local"]), "gcs_data") ∧
      ProtoAttr.listP "gs" ["gcs"] ≠ ProtoAttr.listP "file" ["local"] :=
  ⟨by decide, by decide, by decide, by decide⟩

/-- C3 amended: re-resolving the reconstructed URI reproduces the descriptor
(same backend, same relative path; same org, repo and revision for the Github
backend) provided the Github fields are nonempty and slash-free with a
slash-free revision, and, for a generic backend, the backend is registered
under its canonical protocol name (which is not `https` and has no colon) and
the relative path does not start with a bare protocol name of the backend. -/
theorem resolve_roundtrip_amended :
    (∀ (table : SchemeTable) (org repo sha p : String),
        org ≠ "" → repo ≠ "" → '/' ∉ org.data → '/' ∉ repo.data →
        '/' ∉ sha.data →
        get_fs table (get_path_by_fs_path (FSKind.github org repo sha) p) none =
          some (FSKind.github org repo sha, p)) ∧
    (∀ (table : SchemeTable) (attr : ProtoAttr) (p : String),
        table (protoName attr) = some attr →
        ':' ∉ (protoName attr).data →
        protoName attr ≠ "https" →
        noBareProtoPrefix attr p →
        get_fs table (get_path_by_fs_path (FSKind.generic attr) p) none =
          some (FSKind.generic attr, p)) := by
  constructor
  · intro table org repo sha p ho hr ho2 hr2 hs2
    have hkw := get_github_kwargs_tree org repo sha p ho hr ho2 hr2 hs2
    have hsw : startsWithStr ("https://github.com/" ++ org ++ "/" ++ repo ++
        "/tree/" ++ sha ++ "/" ++ p) "https://github.com" = true := by
      unfold startsWithStr
      rw [github_uri_toList]
      have hgg : ("https://github.com/" : String).data =
          ("https://github.com" : String).data ++ ['/'] := by decide
      rw [hgg, List.append_assoc]
      exact isPrefixL_append_self _ _
    show get_fs table ("https://github.com/" ++ org ++ "/" ++ repo ++ "/tree/" ++
        sha ++ "/" ++ p) none = some (FSKind.github org repo sha, p)
    unfold get_fs
    simp [hsw, hkw]
  · intro table attr p htab hc hs hb
    cases attr with
    | strP s =>
      have hb' : startsWithStr p (s ++ "://") = false := hb
      have huri : get_path_by_fs_path (FSKind.generic (ProtoAttr.strP s)) p =
          s ++ "://" ++ p := by
        simp [get_path_by_fs_path, hb']
      rw [huri]
      exact scheme_uri_get_fs table s p (ProtoAttr.strP s) hc hs htab
    | listP hd tl =>
      have hb' : ∀ q ∈ hd :: tl, startsWithStr p q = false := hb
      rw [listP_no_match_uri hd tl p hb']
      exact scheme_uri_get_fs table hd p (ProtoAttr.listP hd tl) hc hs htab

/-- Witness for the amended C3 on both backend shapes. -/
theorem resolve_roundtrip_amended_witness :
    get_fs demoTable (get_path_by_fs_path (FSKind.github "org" "repo" "v")
        "models/a") none = some (FSKind.github "org" "repo" "v", "models/a") ∧
      get_fs demoTable (get_path_by_fs_path
          (FSKind.generic (ProtoAttr.strP "s3")) "bucket/key") none =
        some (FSKind.generic (ProtoAttr.strP "s3"), "bucket/key") := by
  constructor
  · exact resolve_roundtrip_amended.1 demoTable "org" "repo" "v" "models/a"
      (by decide) (by decide) (by decide) (by decide) (by decide)
  · exact resolve_roundtrip_amended.2 demoTable (ProtoAttr.strP "s3")
      "bucket/key" (by decide) (by decide) (by decide)
      (by show startsWithStr "bucket/key" ("s3" ++ "://") = false; decide)

/-! ## C6: revision encoding asymmetry (corrected) -/

/-- C6 counterexample: with the revision `"/x"` (non-None), the composed
hosted-repo URI is `/x/p` — `os.path.join` resets on the absolute component —
and contains no `/tree/<rev>/` segment sequence, contradicting the claim for
arbitrary rev. -/
theorem revision_encoding_counterexample :
    get_path_by_repo_path_rev demoTable "https://github.com/org/repo" "p"
        (some "/x") = some ("/x/p", []) ∧
      strContains "/x/p" ("/tree/" ++ "/x" ++ "/") = false :=
  ⟨by decide, by decide⟩

/-- C6 amended: for a plain hosted-repo browse URL with nonempty slash-free org
and repo segments, a nonempty revision that neither starts nor ends with `/`
and a path not starting with `/`, the composed URI contains `/tree/<rev>/` and
the extra-options mapping is empty (the resolved root path of a plain browse
URL is empty, so the repo-name segment is dropped by the postfix split exactly
as the source does); for any other repository URL the result is the plain
`os.path.join` of repo and path with the revision carried only in the options
mapping under `rev`. -/
theorem revision_encoding_amended :
    (∀ (table : SchemeTable) (org rn rev path : String),
        org ≠ "" → rn ≠ "" → '/' ∉ org.data → '/' ∉ rn.data →
        rev ≠ "" → startsWithStr rev "/" = false →
        rev.data.getLastD ' ' ≠ '/' → startsWithStr path "/" = false →
        get_path_by_repo_path_rev table
            ("https://github.com/" ++ org ++ "/" ++ rn) path (some rev) =
          some ("https://github.com/" ++ org ++ "/tree/" ++ rev ++ "/" ++ path,
            []) ∧
        strContains
          ("https://github.com/" ++ org ++ "/tree/" ++ rev ++ "/" ++ path)
          ("/tree/" ++ rev ++ "/") = true) ∧
    (∀ (table : SchemeTable) (repo path : String) (rev : Option String),
        startsWithStr repo "https://github.com" = false →
        get_path_by_repo_path_rev table repo path rev =
          some (osJoin repo path, [("rev", rev)])) := by
  constructor
  · intro table org rn rev path ho hr ho2 hr2 hrev hrevs hrevl hpath
    have hsl : ("/" : String).data = ['/'] := by decide
    have hrevs' : isPrefixL ['/'] rev.data = false := by
      unfold startsWithStr at hrevs
      rw [hsl] at hrevs
      exact hrevs
    have hpath' : isPrefixL ['/'] path.data = false := by
      unfold startsWithStr at hpath
      rw [hsl] at hpath
      exact hpath
    have horgne : org.data ≠ [] := fun hh => ho (toList_eq_nil hh)
    have hrevne : rev.data ≠ [] := fun hh => hrev (toList_eq_nil hh)
    have hPne : ("https://github.com/" ++ org) ≠ "" := by
      apply ne_empty_of_data
      rw [String.data_append]
      intro hh
      exact absurd (List.append_eq_nil.mp hh).1 (by decide)
    have hPlast :
        ¬("https://github.com/" ++ org).data.getLastD ' ' = '/' := by
      rw [getLastD_data_append _ _ horgne]
      exact getLastD_ne_slash_of_not_mem horgne ho2
    have e1 : osJoin ("https://github.com/" ++ org) "tree" =
        "https://github.com/" ++ org ++ "/" ++ "tree" :=
      osJoin_std _ _ (by decide) hPne hPlast
    have hj1ne : ("https://github.com/" ++ org ++ "/" ++ "tree") ≠ "" := by
      apply ne_empty_of_data
      rw [String.data_append]
      intro hh
      exact absurd (List.append_eq_nil.mp hh).2 (by decide)
    have hj1last : ¬("https://github.com/" ++ org ++ "/" ++
        "tree").data.getLastD ' ' = '/' := by
      rw [getLastD_data_append _ _ (by decide : ("tree" : String).data ≠ [])]
      decide
    have e2 : osJoin ("https://github.com/" ++ org ++ "/" ++ "tree") rev =
        "https://github.com/" ++ org ++ "/" ++ "tree" ++ "/" ++ rev :=
      osJoin_std _ _ hrevs' hj1ne hj1last
    have hj2ne :
        ("https://github.com/" ++ org ++ "/" ++ "tree" ++ "/" ++ rev) ≠ "" := by
      apply ne_empty_of_data
      rw [String.data_append]
      intro hh
      exact hrevne (List.append_eq_nil.mp hh).2
    have hj2last : ¬("https://github.com/" ++ org ++ "/" ++ "tree" ++ "/" ++
        rev).data.getLastD ' ' = '/' := by
      rw [getLastD_data_append _ _ hrevne]
      exact hrevl
    have e3 : osJoin
        ("https://github.com/" ++ org ++ "/" ++ "tree" ++ "/" ++ rev) "" =
        "https://github.com/" ++ org ++ "/" ++ "tree" ++ "/" ++ rev ++ "/" ++
          "" :=
      osJoin_std _ _ (by decide) hj2ne hj2last
    have hj3ne : ("https://github.com/" ++ org ++ "/" ++ "tree" ++ "/" ++ rev ++
        "/" ++ "") ≠ "" := by
      apply ne_empty_of_data
      rw [String.data_append]
      intro hh
      have h1 := (List.append_eq_nil.mp hh).1
      rw [String.data_append] at h1
      exact absurd (List.append_eq_nil.mp h1).2 (by decide)
    have hj3last : ("https://github.com/" ++ org ++ "/" ++ "tree" ++ "/" ++
        rev ++ "/" ++ "").data.getLastD ' ' = '/' := by
      rw [String.data_append]
      have he : ("" : String).data = [] := rfl
      rw [he, List.append_nil,
        getLastD_data_append _ _ (by decide : ("/" : String).data ≠ [])]
      decide
    have e4 : osJoin ("https://github.com/" ++ org ++ "/" ++ "tree" ++ "/" ++
        rev ++ "/" ++ "") path =
        "https://github.com/" ++ org ++ "/" ++ "tree" ++ "/" ++ rev ++ "/" ++
          "" ++ path :=
      osJoin_endslash _ _ hpath' hj3ne hj3last
    have hfinal : "https://github.com/" ++ org ++ "/" ++ "tree" ++ "/" ++ rev ++
        "/" ++ "" ++ path =
        "https://github.com/" ++ org ++ "/tree/" ++ rev ++ "/" ++ path := by
      apply str_ext
      simp [String.data_append, List.append_assoc]
    constructor
    · unfold get_path_by_repo_path_rev
      simp only [startsWith_github_plain org rn, if_true,
        get_fs_github_plain table org rn ho hr ho2 hr2,
        path_split_post_github_plain org rn ho2 hr2]
      rw [e1, e2, e3, e4, hfinal]
    · unfold strContains
      have hshape : ("https://github.com/" ++ org ++ "/tree/" ++ rev ++ "/" ++
          path).data =
          ("https://github.com/" ++ org).data ++
            ((("/tree/" ++ rev ++ "/") : String).data ++ path.data) := by
        simp [String.data_append, List.append_assoc]
      rw [hshape]
      exact isInfixL_append_left _
        (isInfixL_of_isPrefixL (isPrefixL_append_self _ _))
  · intro table repo path rev hne
    unfold get_path_by_repo_path_rev
    simp [hne]

/-- Witness for the amended C6 on both branches. -/
theorem revision_encoding_amended_witness :
    (get_path_by_repo_path_rev demoTable
        ("https://github.com/" ++ "org" ++ "/" ++ "repo") "p" (some "v") =
      some ("https://github.com/" ++ "org" ++ "/tree/" ++ "v" ++ "/" ++ "p",
        []) ∧
      strContains ("https://github.com/" ++ "org" ++ "/tree/" ++ "v" ++ "/" ++
        "p") ("/tree/" ++ "v" ++ "/") = true) ∧
    get_path_by_repo_path_rev demoTable "git@host:repo" "p" (some "v") =
      some (osJoin "git@host:repo" "p", [("rev", some "v")]) := by
  constructor
  · exact revision_encoding_amended.1 demoTable "org" "repo" "v" "p"
      (by decide) (by decide) (by decide) (by decide) (by decide) (by decide)
      (by decide) (by decide)
  · exact revision_encoding_amended.2 demoTable "git@host:repo" "p" (some "v")
      (by decide)

end Mlem
